import Mathlib

/-!
Verification development for the matgl three-body graph pipeline.

The repository ships the configuration module (`matgl/config.py`) and the
test suite for the three-body layers (`matgl/layers/tests/test_three_body.py`).
The graph construction and layer code exercised by those tests
(`matgl.graph.converters`, `matgl.graph.compute`, `matgl.layers.three_body`,
`matgl.layers.cutoff_functions`) is not part of the shipped sources, so those
operations are modelled here from the specification, with exact rational
arithmetic standing in for floating point and real-valued square roots and
arc cosines for the corresponding numeric kernels.
-/

/-- A 3-vector of rational Cartesian coordinates. -/
def Vec3 : Type := ℚ × ℚ × ℚ

instance : DecidableEq Vec3 := by unfold Vec3; infer_instance

/-- The zero 3-vector. -/
def v0 : Vec3 := ((0 : ℚ), (0 : ℚ), (0 : ℚ))

/-- Componentwise addition of 3-vectors. -/
def add3 (a b : Vec3) : Vec3 := (a.1 + b.1, a.2.1 + b.2.1, a.2.2 + b.2.2)

/-- Componentwise subtraction of 3-vectors. -/
def sub3 (a b : Vec3) : Vec3 := (a.1 - b.1, a.2.1 - b.2.1, a.2.2 - b.2.2)

/-- Scaling of a 3-vector by an integer (a periodic image multiplier). -/
def zsmul3 (z : ℤ) (a : Vec3) : Vec3 := ((z : ℚ) * a.1, (z : ℚ) * a.2.1, (z : ℚ) * a.2.2)

/-- Dot product of two 3-vectors. -/
def dot3 (a b : Vec3) : ℚ := a.1 * b.1 + a.2.1 * b.2.1 + a.2.2 * b.2.2

/-- Squared Euclidean norm of a 3-vector. -/
def normSq3 (a : Vec3) : ℚ := dot3 a a

/-- A periodic lattice given by its three row vectors. -/
structure Lattice3 where
  rowa : Vec3
  rowb : Vec3
  rowc : Vec3
deriving DecidableEq

/-- Modelled from the spec: the atomic-structure collaborator of section 6,
exposing an ordered species list, Cartesian coordinates, and an optional
periodic lattice (`pymatgen` Structure or Molecule; not in src/). -/
structure AtomStructure where
  species : List String
  cart : List Vec3
  lattice : Option Lattice3

/-- A directed bond of the base graph: source and destination atom indices
plus the periodic image shift of the destination. -/
structure Edge where
  src : ℕ
  dst : ℕ
  shift : ℤ × ℤ × ℤ
deriving DecidableEq, Repr

/-- Default edge used for out-of-range list access. -/
def edge0 : Edge := ⟨0, 0, (0, 0, 0)⟩

/-- Cartesian displacement contributed by a periodic image shift
(zero for a non-periodic structure). -/
def shiftCart (lat : Option Lattice3) (s : ℤ × ℤ × ℤ) : Vec3 :=
  match lat with
  | none => v0
  | some L => add3 (add3 (zsmul3 s.1 L.rowa) (zsmul3 s.2.1 L.rowb)) (zsmul3 s.2.2 L.rowc)

/-- Displacement from atom `i` to the periodic image `s` of atom `j`. -/
def pairVec (cart : List Vec3) (lat : Option Lattice3) (i j : ℕ) (s : ℤ × ℤ × ℤ) : Vec3 :=
  sub3 (add3 (cart.getD j v0) (shiftCart lat s)) (cart.getD i v0)

/-- Modelled from the spec: the AtomicGraph of section 3 — nodes are atoms,
directed edges are atom pairs within the cutoff, each edge carrying a
periodic image shift (DGL graph built by `Pmg2Graph`; not in src/). -/
structure AtomicGraph where
  numNodes : ℕ
  cart : List Vec3
  lattice : Option Lattice3
  edges : List Edge

/-- Bond vector of an edge: `position[dst] + lattice_shift - position[src]`. -/
def bondVec (g : AtomicGraph) (e : Edge) : Vec3 :=
  pairVec g.cart g.lattice e.src e.dst e.shift

/-- Squared bond distance of an edge. -/
def bondDistSq (g : AtomicGraph) (e : Edge) : ℚ := normSq3 (bondVec g e)

/-- Modelled from the spec: `compute_pair_vector_and_distance` of
`matgl.graph.compute` (not in src/) — the batched pass returning the bond
vector and bond distance of every edge; distances are kept squared here and
the real-valued distance is `bond_dist`. -/
def compute_pair_vector_and_distance (g : AtomicGraph) : List (Vec3 × ℚ) :=
  g.edges.map (fun e => (bondVec g e, bondDistSq g e))

/-- Real-valued bond distance of an edge (the square root of the exact
squared distance). -/
noncomputable def bond_dist (g : AtomicGraph) (e : Edge) : ℝ :=
  Real.sqrt ((bondDistSq g e : ℚ) : ℝ)

/-- All candidate periodic image shifts with components in `[-R, R]`. -/
def candidateShifts (R : ℕ) : List (ℤ × ℤ × ℤ) :=
  let r : List ℤ := (List.range (2 * R + 1)).map (fun k => (k : ℤ) - (R : ℤ))
  r.flatMap (fun a => r.flatMap (fun b => r.map (fun c => (a, b, c))))

/-- The membership test of the converter: the candidate edge is not the
trivial self pair and its distance is within the cutoff. -/
def edgeWithin (cart : List Vec3) (lat : Option Lattice3) (cutoff : ℚ)
    (i j : ℕ) (s : ℤ × ℤ × ℤ) : Prop :=
  ¬(i = j ∧ s = (0, 0, 0)) ∧ normSq3 (pairVec cart lat i j s) ≤ cutoff ^ 2

instance (cart : List Vec3) (lat : Option Lattice3) (cutoff : ℚ) (i j : ℕ)
    (s : ℤ × ℤ × ℤ) : Decidable (edgeWithin cart lat cutoff i j s) := by
  unfold edgeWithin; infer_instance

/-- Modelled from the spec: `Pmg2Graph.get_graph_from_structure` (not in
src/) — every ordered atom pair within the cutoff, periodic images
included, becomes a directed edge; `R` bounds the image search, standing in
for the neighbour enumeration done by pymatgen. -/
def get_graph_from_structure (cutoff : ℚ) (R : ℕ) (st : AtomStructure) : AtomicGraph :=
  let n := st.cart.length
  { numNodes := n
    cart := st.cart
    lattice := st.lattice
    edges :=
      (List.range n).flatMap (fun i =>
        (List.range n).flatMap (fun j =>
          (candidateShifts R).filterMap (fun s =>
            if edgeWithin st.cart st.lattice cutoff i j s then some ⟨i, j, s⟩ else none))) }

/-- Modelled from the spec: `Pmg2Graph.get_graph_from_molecule` (not in
src/) — the finite-structure converter, where only same-image pairs within
the cutoff qualify. -/
def get_graph_from_molecule (cutoff : ℚ) (st : AtomStructure) : AtomicGraph :=
  get_graph_from_structure cutoff 0 { st with lattice := none }

/-- Source atom of the base-graph edge with index `i`. -/
def srcAt (g : AtomicGraph) (i : ℕ) : ℕ := (g.edges.getD i edge0).src

/-- Squared bond distance of the base-graph edge with index `i`. -/
def edgeDistSqAt (g : AtomicGraph) (i : ℕ) : ℚ := bondDistSq g (g.edges.getD i edge0)

/-- Indices of the base-graph edges whose bond distance is within the
three-body cutoff. -/
def selectedEdgeIdx (g : AtomicGraph) (tc : ℚ) : List ℕ :=
  (List.range g.edges.length).filter (fun i => decide (edgeDistSqAt g i ≤ tc ^ 2))

/-- Modelled from the spec: the LineGraph of section 3 — nodes are the
selected base-graph edges (stored as indices into the base edge list), edges
are ordered pairs of distinct selected bonds sharing an atom. -/
structure LineGraph where
  nodes : List ℕ
  edges : List (ℕ × ℕ)

/-- Modelled from the spec: `create_line_graph` of `matgl.graph.compute`
(not in src/) — select the edges within the three-body cutoff, group them
by shared (source) atom, and form all ordered pairs of distinct incident
selected edges. -/
def create_line_graph (g : AtomicGraph) (tc : ℚ) : LineGraph :=
  let sel := selectedEdgeIdx g tc
  { nodes := sel
    edges := sel.flatMap (fun i =>
      (sel.filter (fun j => decide (j ≠ i ∧ srcAt g j = srcAt g i))).map (fun j => (i, j))) }

/-- Modelled from the spec: `polynomial_cutoff` of
`matgl.layers.cutoff_functions` (not in src/) — the polynomial envelope
that is 1 at r = 0 and decays smoothly to 0 at r = cutoff. -/
def polynomial_cutoff (r cutoff : ℚ) : ℚ :=
  1 - 6 * (r / cutoff) ^ 5 + 15 * (r / cutoff) ^ 4 - 10 * (r / cutoff) ^ 3

/-- The matgl cache directory: the `.matgl` folder under the user home
(`MATGL_CACHE` in `matgl/config.py`). -/
def MATGL_CACHE (home : String) : String := home ++ "/.matgl"

/-- Model of `shutil.rmtree`: removes from the filesystem every path lying
under the given directory path. -/
def rmtree (dir : String) (fs : List String) : List String :=
  fs.filter (fun q => decide (¬ dir.isPrefixOf q))

/-- Model of the Python `str.lower` call: lowercases every character. -/
def strLower (s : String) : String := ⟨s.data.map Char.toLower⟩

/-- Model of `clear_cache` from `matgl/config.py`: the interactive response
is read from the prompt, and the cache tree is removed exactly when the
lowercased response is the string y. -/
def clear_cache (response : String) (home : String) (fs : List String) : List String :=
  if strLower response = "y" then rmtree (MATGL_CACHE home) fs else fs

/-- Modelled from the spec: the raw cosine computed by
`compute_theta_and_phi` of `matgl.graph.compute` (not in src/):
the dot product of the two bond vectors over the product of their norms. -/
noncomputable def cosRaw (va vb : Vec3) : ℝ :=
  ((dot3 va vb : ℚ) : ℝ) /
    (Real.sqrt ((normSq3 va : ℚ) : ℝ) * Real.sqrt ((normSq3 vb : ℚ) : ℝ))

/-- The cosine clamped to the interval `[-1, 1]` before the arc cosine. -/
noncomputable def clampedCos (va vb : Vec3) : ℝ :=
  max (-1) (min 1 (cosRaw va vb))

/-- Modelled from the spec: the bond angle computed by
`compute_theta_and_phi` (not in src/): the arc cosine of the clamped
cosine of the two bond vectors of a line-graph edge. -/
noncomputable def compute_theta_and_phi (va vb : Vec3) : ℝ :=
  Real.arccos (clampedCos va vb)

/-- Number of (l, m) spherical-harmonic pairs with degree below `max_l`. -/
def numLM (max_l : ℕ) : ℕ := ((List.range max_l).map (fun l => 2 * l + 1)).sum

/-- Feature width of the angular/radial basis layer: `max_n * max_l`
without the azimuthal angle, `max_n` times the number of (l, m) pairs
with it. -/
def sbwhWidth (max_n max_l : ℕ) (use_phi : Bool) : ℕ :=
  if use_phi then max_n * numLM max_l else max_n * max_l

/-- Modelled from the spec: the `SphericalBesselWithHarmonics` layer of
`matgl.layers.three_body` (not in src/): one row per line-graph edge, one
column per basis function; `entry` stands for the numeric Bessel/harmonic
kernel, which may depend on `use_smooth` but not the output shape. -/
def SphericalBesselWithHarmonics (max_n max_l : ℕ) (use_smooth use_phi : Bool)
    (entry : Bool → ℕ → ℕ → ℚ) (g : AtomicGraph) (lg : LineGraph) : List (List ℚ) :=
  (List.range lg.edges.length).map (fun r =>
    (List.range (sbwhWidth max_n max_l use_phi)).map (fun k => entry use_smooth r k))

/-- The count of (l, m) pairs with degree below `m` is `m ^ 2`. -/
theorem numLM_eq_sq (m : ℕ) : numLM m = m * m := by
  induction m with
  | zero => rfl
  | succ n ih =>
    have h : numLM (n + 1) = numLM n + (2 * n + 1) := by
      simp [numLM, List.range_succ]
    rw [h, ih]
    ring

/-- The increasing half of the smoothstep polynomial used by the cutoff
envelope: monotone on the unit interval. -/
theorem smooth_step_mono {x y : ℚ} (hx : 0 ≤ x) (hxy : x ≤ y) (hy : y ≤ 1) :
    6 * x ^ 5 - 15 * x ^ 4 + 10 * x ^ 3 ≤ 6 * y ^ 5 - 15 * y ^ 4 + 10 * y ^ 3 := by
  have hd : 0 ≤ y - x := sub_nonneg.2 hxy
  have hw : 0 ≤ 1 - y := sub_nonneg.2 hy
  have key : 6 * y ^ 5 - 15 * y ^ 4 + 10 * y ^ 3 - (6 * x ^ 5 - 15 * x ^ 4 + 10 * x ^ 3) =
      (y - x) * (10 * x ^ 2 * (y - x) ^ 2 + 30 * x ^ 2 * ((y - x) * (1 - y))
        + 30 * x ^ 2 * (1 - y) ^ 2 + 5 * x * (y - x) ^ 3
        + 20 * x * ((y - x) ^ 2 * (1 - y)) + 30 * x * ((y - x) * (1 - y) ^ 2)
        + (y - x) ^ 4 + 5 * ((y - x) ^ 3 * (1 - y))
        + 10 * ((y - x) ^ 2 * (1 - y) ^ 2)) := by ring
  have hE : 0 ≤ 10 * x ^ 2 * (y - x) ^ 2 + 30 * x ^ 2 * ((y - x) * (1 - y))
      + 30 * x ^ 2 * (1 - y) ^ 2 + 5 * x * (y - x) ^ 3
      + 20 * x * ((y - x) ^ 2 * (1 - y)) + 30 * x * ((y - x) * (1 - y) ^ 2)
      + (y - x) ^ 4 + 5 * ((y - x) ^ 3 * (1 - y))
      + 10 * ((y - x) ^ 2 * (1 - y) ^ 2) := by
    have t1 : (0:ℚ) ≤ 10 * x ^ 2 * (y - x) ^ 2 :=
      mul_nonneg (mul_nonneg (by norm_num) (sq_nonneg x)) (sq_nonneg _)
    have t2 : (0:ℚ) ≤ 30 * x ^ 2 * ((y - x) * (1 - y)) :=
      mul_nonneg (mul_nonneg (by norm_num) (sq_nonneg x)) (mul_nonneg hd hw)
    have t3 : (0:ℚ) ≤ 30 * x ^ 2 * (1 - y) ^ 2 :=
      mul_nonneg (mul_nonneg (by norm_num) (sq_nonneg x)) (sq_nonneg _)
    have t4 : (0:ℚ) ≤ 5 * x * (y - x) ^ 3 :=
      mul_nonneg (mul_nonneg (by norm_num) hx) (pow_nonneg hd 3)
    have t5 : (0:ℚ) ≤ 20 * x * ((y - x) ^ 2 * (1 - y)) :=
      mul_nonneg (mul_nonneg (by norm_num) hx) (mul_nonneg (sq_nonneg _) hw)
    have t6 : (0:ℚ) ≤ 30 * x * ((y - x) * (1 - y) ^ 2) :=
      mul_nonneg (mul_nonneg (by norm_num) hx) (mul_nonneg hd (sq_nonneg _))
    have t7 : (0:ℚ) ≤ (y - x) ^ 4 := pow_nonneg hd 4
    have t8 : (0:ℚ) ≤ 5 * ((y - x) ^ 3 * (1 - y)) :=
      mul_nonneg (by norm_num) (mul_nonneg (pow_nonneg hd 3) hw)
    have t9 : (0:ℚ) ≤ 10 * ((y - x) ^ 2 * (1 - y) ^ 2) :=
      mul_nonneg (by norm_num) (mul_nonneg (sq_nonneg _) (sq_nonneg _))
    linarith
  have := mul_nonneg hd hE
  linarith [key ▸ this]

/-- C8: for every positive cutoff `c`, the polynomial cutoff envelope is 1
at distance 0, 0 at distance `c`, and monotonically non-increasing on the
interval `[0, c]`. -/
theorem polynomial_cutoff_envelope (c : ℚ) (hc : 0 < c) :
    polynomial_cutoff 0 c = 1 ∧ polynomial_cutoff c c = 0 ∧
      ∀ a b : ℚ, 0 ≤ a → a ≤ b → b ≤ c → polynomial_cutoff b c ≤ polynomial_cutoff a c := by
  have hc0 : c ≠ 0 := ne_of_gt hc
  refine ⟨?_, ?_, ?_⟩
  · simp [polynomial_cutoff]
  · rw [polynomial_cutoff, div_self hc0]
    norm_num
  · intro a b ha hab hbc
    have hx : 0 ≤ a / c := div_nonneg ha hc.le
    have hxy : a / c ≤ b / c := (div_le_div_right hc).mpr hab
    have hy1 : b / c ≤ 1 := (div_le_one hc).mpr hbc
    have h := smooth_step_mono hx hxy hy1
    rw [polynomial_cutoff, polynomial_cutoff]
    linarith

/-- Witness for C8 at the concrete cutoff 2. -/
theorem polynomial_cutoff_envelope_witness :
    (0:ℚ) < 2 ∧ (polynomial_cutoff 0 2 = 1 ∧ polynomial_cutoff 2 2 = 0 ∧
      ∀ a b : ℚ, 0 ≤ a → a ≤ b → b ≤ 2 → polynomial_cutoff b 2 ≤ polynomial_cutoff a 2) :=
  ⟨by norm_num, polynomial_cutoff_envelope 2 (by norm_num)⟩

/-- C7: the cosine argument of the angle computer is clamped to `[-1, 1]`
before the arc cosine, so the computed angle always lies in `[0, pi]`. -/
theorem theta_clamped_range (va vb : Vec3) :
    (-1 ≤ clampedCos va vb ∧ clampedCos va vb ≤ 1) ∧
      0 ≤ compute_theta_and_phi va vb ∧ compute_theta_and_phi va vb ≤ Real.pi := by
  refine ⟨⟨le_max_left _ _, ?_⟩, Real.arccos_nonneg _, Real.arccos_le_pi _⟩
  exact max_le (by norm_num) (min_le_left _ _)

/-- C10: `clear_cache` removes the cache tree exactly when the lowercased
response is y, and leaves the filesystem unchanged on any other response. -/
theorem clear_cache_iff (response home : String) (fs : List String) :
    (strLower response = "y" → clear_cache response home fs = rmtree (MATGL_CACHE home) fs)
    ∧ (strLower response ≠ "y" → clear_cache response home fs = fs)
    ∧ ∀ p, p ∈ clear_cache response home fs ↔
        p ∈ fs ∧ (strLower response = "y" → ¬ (MATGL_CACHE home).isPrefixOf p) := by
  by_cases h : strLower response = "y"
  · refine ⟨fun _ => by rw [clear_cache, if_pos h], fun hne => absurd h hne, fun p => ?_⟩
    rw [clear_cache, if_pos h]
    simp [rmtree, List.mem_filter, h]
  · refine ⟨fun hy => absurd hy h, fun _ => by rw [clear_cache, if_neg h], fun p => ?_⟩
    rw [clear_cache, if_neg h]
    simp [h]

/-- Witness for C10: a y answer removes the cache tree, any other answer
leaves the filesystem untouched. -/
theorem clear_cache_iff_witness :
    clear_cache "Y" "/home/u" ["/home/u/.matgl/m.pt", "/home/u/data"]
        = rmtree (MATGL_CACHE "/home/u") ["/home/u/.matgl/m.pt", "/home/u/data"]
    ∧ clear_cache "no" "/home/u" ["/home/u/.matgl/m.pt", "/home/u/data"]
        = ["/home/u/.matgl/m.pt", "/home/u/data"] :=
  ⟨(clear_cache_iff "Y" "/home/u" ["/home/u/.matgl/m.pt", "/home/u/data"]).1 (by decide),
   (clear_cache_iff "no" "/home/u" ["/home/u/.matgl/m.pt", "/home/u/data"]).2.1 (by decide)⟩

/-- C2: the basis-layer output width is `max_n * max_l` without the
azimuthal angle and `max_n * max_l ^ 2` (that is, `max_n` times the number
of (l, m) pairs) with it, independent of `use_smooth` and of the input
graphs, with the concrete widths 9, 12 and 27 of the test suite. -/
theorem sbwh_output_width (max_n max_l : ℕ) (hn : 0 < max_n) (hl : 0 < max_l)
    (use_smooth use_phi : Bool) (entry : Bool → ℕ → ℕ → ℚ) (g : AtomicGraph) (lg : LineGraph) :
    (∀ row ∈ SphericalBesselWithHarmonics max_n max_l use_smooth use_phi entry g lg,
        row.length = if use_phi then max_n * (max_l * max_l) else max_n * max_l)
    ∧ sbwhWidth max_n max_l true = max_n * numLM max_l
    ∧ numLM max_l = max_l * max_l
    ∧ sbwhWidth 3 3 false = 9 ∧ sbwhWidth 3 2 true = 12 ∧ sbwhWidth 3 3 true = 27 := by
  refine ⟨?_, by rw [sbwhWidth]; simp, numLM_eq_sq max_l, by decide, by decide, by decide⟩
  intro row hrow
  rcases List.mem_map.1 hrow with ⟨r, _, hr⟩
  rw [← hr, List.length_map, List.length_range, sbwhWidth]
  cases use_phi
  · simp
  · simp [numLM_eq_sq]

/-- Witness for C2 at the configuration of the test suite. -/
theorem sbwh_output_width_witness :
    0 < 3 ∧ 0 < 3 ∧
      ((∀ row ∈ SphericalBesselWithHarmonics 3 3 false false (fun _ _ _ => 0)
            ⟨0, [], none, []⟩ ⟨[], []⟩,
          row.length = if false then 3 * (3 * 3) else 3 * 3)
        ∧ sbwhWidth 3 3 true = 3 * numLM 3
        ∧ numLM 3 = 3 * 3
        ∧ sbwhWidth 3 3 false = 9 ∧ sbwhWidth 3 2 true = 12 ∧ sbwhWidth 3 3 true = 27) :=
  ⟨by decide, by decide,
   sbwh_output_width 3 3 (by decide) (by decide) false false (fun _ _ _ => 0)
     ⟨0, [], none, []⟩ ⟨[], []⟩⟩

/-- The cubic lattice with lattice constant 4 of the test scenario. -/
def cubic4 : Lattice3 := ⟨((4 : ℚ), 0, 0), ((0 : ℚ), 4, 0), ((0 : ℚ), 0, 4)⟩

/-- The Mo-S structure of the test scenario: cubic cell of constant 4, Mo
at the origin and S at the body centre (fractional (0.5, 0.5, 0.5), that
is, Cartesian (2, 2, 2)). -/
def stMoS : AtomStructure := ⟨["Mo", "S"], [((0 : ℚ), 0, 0), ((2 : ℚ), 2, 2)], some cubic4⟩

/-- The Mo-S base graph converted at cutoff 5. -/
def gMoS : AtomicGraph := get_graph_from_structure 5 1 stMoS

/-- The Mo-S line graph at three-body cutoff 4. -/
def lgMoS : LineGraph := create_line_graph gMoS 4

/-- C4: the bond distance computed by the pair geometry computer is never
negative, and every edge admitted by the converter cutoff filter has bond
distance at most that cutoff (so in particular within any positive
tolerance of it). -/
theorem bond_distance_bounds :
    (∀ (g : AtomicGraph) (e : Edge), 0 ≤ bond_dist g e)
    ∧ ∀ (cutoff : ℚ) (R : ℕ) (st : AtomStructure) (e : Edge),
        0 ≤ cutoff → e ∈ (get_graph_from_structure cutoff R st).edges →
          bond_dist (get_graph_from_structure cutoff R st) e ≤ (cutoff : ℝ) := by
  refine ⟨fun g e => Real.sqrt_nonneg _, ?_⟩
  intro cutoff R st e hc he
  simp only [get_graph_from_structure, List.mem_flatMap, List.mem_filterMap,
    Option.ite_none_right_eq_some, Option.some.injEq] at he
  rcases he with ⟨i, _, j, _, s, _, hw, hes⟩
  have hsq : bondDistSq (get_graph_from_structure cutoff R st) e ≤ cutoff ^ 2 := by
    rw [← hes]
    exact hw.2
  rw [bond_dist]
  have hcast : ((bondDistSq (get_graph_from_structure cutoff R st) e : ℚ) : ℝ)
      ≤ ((cutoff : ℚ) : ℝ) ^ 2 := by
    push_cast
    exact_mod_cast hsq
  calc Real.sqrt ((bondDistSq (get_graph_from_structure cutoff R st) e : ℚ) : ℝ)
      ≤ Real.sqrt (((cutoff : ℚ) : ℝ) ^ 2) := Real.sqrt_le_sqrt hcast
    _ = (cutoff : ℝ) := by
        rw [Real.sqrt_sq (by exact_mod_cast hc)]

/-- Witness for C4 at the home-cell Mo to S bond of the test scenario. -/
theorem bond_distance_bounds_witness :
    (0 : ℚ) ≤ 5 ∧ (⟨0, 1, (0, 0, 0)⟩ : Edge) ∈ (get_graph_from_structure 5 1 stMoS).edges ∧
      bond_dist (get_graph_from_structure 5 1 stMoS) ⟨0, 1, (0, 0, 0)⟩ ≤ ((5 : ℚ) : ℝ) :=
  ⟨by with_unfolding_all decide, by with_unfolding_all decide,
   bond_distance_bounds.2 5 1 stMoS ⟨0, 1, (0, 0, 0)⟩
     (by with_unfolding_all decide) (by with_unfolding_all decide)⟩

set_option maxRecDepth 100000 in
/-- C5: the Mo-S scenario end to end — 28 base edges at cutoff 5 including
periodic-image bonds, 364 line-graph edges at three-body cutoff 4, and a
three-body basis tensor whose first dimension is exactly that edge count. -/
theorem mos_end_to_end :
    gMoS.edges.length = 28
    ∧ (∃ e ∈ gMoS.edges, e.shift ≠ ((0 : ℤ), (0 : ℤ), (0 : ℤ)))
    ∧ lgMoS.edges.length = 364
    ∧ ∀ (use_smooth use_phi : Bool) (entry : Bool → ℕ → ℕ → ℚ),
        (SphericalBesselWithHarmonics 3 3 use_smooth use_phi entry gMoS lgMoS).length = 364 := by
  have h364 : lgMoS.edges.length = 364 := by with_unfolding_all decide
  refine ⟨by with_unfolding_all decide, by with_unfolding_all decide, h364, ?_⟩
  intro use_smooth use_phi entry
  rw [SphericalBesselWithHarmonics, List.length_map, List.length_range, h364]

/-- The two atom instances (atom index paired with periodic image shift)
at the ends of a bond: the source sits in the home cell, the destination
in the cell selected by the edge shift. -/
def endpoints (e : Edge) : Finset (ℕ × (ℤ × ℤ × ℤ)) :=
  {(e.src, ((0 : ℤ), (0 : ℤ), (0 : ℤ))), (e.dst, e.shift)}

/-- Well-formedness of a base graph: no duplicate edges, no trivial
self-loop (an edge from an atom to its own home-cell copy), and all
endpoint indices in range. -/
def WellFormedGraph (g : AtomicGraph) : Prop :=
  g.edges.Nodup
    ∧ (∀ e ∈ g.edges, ¬(e.src = e.dst ∧ e.shift = ((0 : ℤ), (0 : ℤ), (0 : ℤ))))
    ∧ ∀ e ∈ g.edges, e.src < g.numNodes ∧ e.dst < g.numNodes

instance (g : AtomicGraph) : Decidable (WellFormedGraph g) := by
  unfold WellFormedGraph; infer_instance

/-- List access with the default edge agrees with indexed access in range. -/
theorem getD_eq_of_lt (l : List Edge) (i : ℕ) (h : i < l.length) : l.getD i edge0 = l[i] := by
  rw [List.getD_eq_getElem?_getD, List.getElem?_eq_getElem h]
  rfl

/-- Members of the selected-edge index list are in range. -/
theorem selected_lt (g : AtomicGraph) (tc : ℚ) {i : ℕ} (hi : i ∈ selectedEdgeIdx g tc) :
    i < g.edges.length :=
  List.mem_range.1 (List.mem_filter.1 hi).1

/-- C1: every line-graph edge joins two distinct bonds, and the two bonds
share exactly one atom instance. -/
theorem line_graph_shared_atom (g : AtomicGraph) (tc : ℚ) (hwf : WellFormedGraph g)
    (p : ℕ × ℕ) (hp : p ∈ (create_line_graph g tc).edges) :
    p.1 ≠ p.2 ∧
      (endpoints (g.edges.getD p.1 edge0) ∩ endpoints (g.edges.getD p.2 edge0)).card = 1 := by
  obtain ⟨hnd, hloop, _⟩ := hwf
  simp only [create_line_graph, List.mem_flatMap, List.mem_map, List.mem_filter,
    decide_eq_true_eq] at hp
  obtain ⟨i, hi, j, ⟨hj, hji, hsrc⟩, hpj⟩ := hp
  subst hpj
  have hi_lt : i < g.edges.length := selected_lt g tc hi
  have hj_lt : j < g.edges.length := selected_lt g tc hj
  have hne : i ≠ j := Ne.symm hji
  refine ⟨hne, ?_⟩
  rw [getD_eq_of_lt _ _ hi_lt, getD_eq_of_lt _ _ hj_lt]
  have hsrc2 : (g.edges[j]).src = (g.edges[i]).src := by
    have h := hsrc
    rw [srcAt, srcAt, getD_eq_of_lt _ _ hj_lt, getD_eq_of_lt _ _ hi_lt] at h
    exact h
  have hne12 : g.edges[i] ≠ g.edges[j] := fun h => hne (hnd.getElem_inj_iff.1 h)
  have hl1 : ¬((g.edges[i]).src = (g.edges[i]).dst
      ∧ (g.edges[i]).shift = ((0 : ℤ), (0 : ℤ), (0 : ℤ))) :=
    hloop _ (List.getElem_mem hi_lt)
  have hl2 : ¬((g.edges[j]).src = (g.edges[j]).dst
      ∧ (g.edges[j]).shift = ((0 : ℤ), (0 : ℤ), (0 : ℤ))) :=
    hloop _ (List.getElem_mem hj_lt)
  have hkey : endpoints g.edges[i] ∩ endpoints g.edges[j]
      = {((g.edges[i]).src, ((0 : ℤ), (0 : ℤ), (0 : ℤ)))} := by
    ext x
    simp only [endpoints, Finset.mem_inter, Finset.mem_insert, Finset.mem_singleton, hsrc2]
    constructor
    · rintro ⟨h1 | h1, h2 | h2⟩
      · exact h1
      · exact h1
      · exfalso
        rw [h1] at h2
        have hd : (g.edges[i]).dst = (g.edges[i]).src := congrArg Prod.fst h2
        have hs : (g.edges[i]).shift = ((0 : ℤ), (0 : ℤ), (0 : ℤ)) := congrArg Prod.snd h2
        exact hl1 ⟨hd.symm, hs⟩
      · exfalso
        rw [h1] at h2
        have hd : (g.edges[i]).dst = (g.edges[j]).dst := congrArg Prod.fst h2
        have hs : (g.edges[i]).shift = (g.edges[j]).shift := congrArg Prod.snd h2
        apply hne12
        have hi' := g.edges[i]
        cases hei : g.edges[i] with
        | mk a b c =>
          cases hej : g.edges[j] with
          | mk a2 b2 c2 =>
            rw [hei, hej] at hsrc2 hd hs
            simp only at hsrc2 hd hs
            rw [hsrc2, hd, hs]
    · intro hx
      refine ⟨Or.inl hx, Or.inl ?_⟩
      rw [hx]
  rw [hkey, Finset.card_singleton]

/-- A three-atom bent molecule used as a concrete witness scenario. -/
def stTri : AtomStructure :=
  ⟨["O", "H", "H"], [((0 : ℚ), 0, 0), ((1 : ℚ), 0, 0), ((0 : ℚ), 1, 0)], none⟩

/-- The three-atom molecule graph at cutoff 2. -/
def gTri : AtomicGraph := get_graph_from_molecule 2 stTri

/-- Witness for C1 on the first line-graph edge of the three-atom molecule. -/
theorem line_graph_shared_atom_witness :
    WellFormedGraph gTri ∧ ((0, 1) : ℕ × ℕ) ∈ (create_line_graph gTri 2).edges ∧
      (((0, 1) : ℕ × ℕ).1 ≠ ((0, 1) : ℕ × ℕ).2 ∧
        (endpoints (gTri.edges.getD 0 edge0) ∩ endpoints (gTri.edges.getD 1 edge0)).card = 1) :=
  ⟨by with_unfolding_all decide, by with_unfolding_all decide,
   line_graph_shared_atom gTri 2 (by with_unfolding_all decide) (0, 1)
     (by with_unfolding_all decide)⟩

/-- Removing one occurrence from a duplicate-free list by filtering drops
its length by exactly one. -/
theorem length_filter_ne_of_nodup {l : List ℕ} {i : ℕ} (hl : l.Nodup) (hi : i ∈ l) :
    (l.filter (fun j => decide (j ≠ i))).length = l.length - 1 := by
  have h1 : l.filter (fun j => decide (j ≠ i)) = l.filter (· != i) := by
    apply List.filter_congr
    intro j _
    by_cases h : j = i
    · subst h
      simp
    · simp [h, bne_iff_ne]
  rw [h1, ← List.Nodup.erase_eq_filter hl, List.length_erase_of_mem hi]

/-- Number of selected edges whose source is the atom `a`. -/
def incidentCount (g : AtomicGraph) (tc : ℚ) (a : ℕ) : ℕ :=
  ((selectedEdgeIdx g tc).filter (fun i => decide (srcAt g i = a))).length

/-- C3: the line-graph builder selects exactly the edges within the
three-body cutoff as nodes, its edge count is the sum over atoms of
n * (n - 1) for n incident selected edges, atoms with fewer than two
incident selected edges contribute nothing, and an empty selection yields
an empty line graph. -/
theorem create_line_graph_counts (g : AtomicGraph) (tc : ℚ)
    (hwf : ∀ e ∈ g.edges, e.src < g.numNodes) :
    (create_line_graph g tc).nodes = selectedEdgeIdx g tc
    ∧ (∀ i, i ∈ (create_line_graph g tc).nodes ↔
        i < g.edges.length ∧ edgeDistSqAt g i ≤ tc ^ 2)
    ∧ (create_line_graph g tc).edges.length
        = ∑ a ∈ Finset.range g.numNodes, incidentCount g tc a * (incidentCount g tc a - 1)
    ∧ (∀ a, incidentCount g tc a < 2 → incidentCount g tc a * (incidentCount g tc a - 1) = 0)
    ∧ (selectedEdgeIdx g tc = [] → (create_line_graph g tc).edges = []) := by
  have hnodup : (selectedEdgeIdx g tc).Nodup := (List.nodup_range _).filter _
  refine ⟨rfl, ?_, ?_, ?_, ?_⟩
  · intro i
    simp [create_line_graph, selectedEdgeIdx, List.mem_filter, List.mem_range,
      decide_eq_true_eq]
  · have hlen1 : (create_line_graph g tc).edges.length
        = ((selectedEdgeIdx g tc).map (fun i => ((selectedEdgeIdx g tc).filter
            (fun j => decide (j ≠ i ∧ srcAt g j = srcAt g i))).length)).sum := by
      simp only [create_line_graph, List.length_flatMap]
      refine congrArg List.sum ?_
      apply List.map_congr_left
      intro i _
      simp [Function.comp]
    have hper : ∀ i ∈ selectedEdgeIdx g tc,
        ((selectedEdgeIdx g tc).filter (fun j => decide (j ≠ i ∧ srcAt g j = srcAt g i))).length
          = incidentCount g tc (srcAt g i) - 1 := by
      intro i hi
      have hsplit : (selectedEdgeIdx g tc).filter
            (fun j => decide (j ≠ i ∧ srcAt g j = srcAt g i))
          = ((selectedEdgeIdx g tc).filter (fun j => decide (srcAt g j = srcAt g i))).filter
              (fun j => decide (j ≠ i)) := by
        rw [List.filter_filter]
        apply List.filter_congr
        intro j _
        rw [Bool.decide_and, Bool.and_comm]
      have him : i ∈ (selectedEdgeIdx g tc).filter (fun j => decide (srcAt g j = srcAt g i)) :=
        List.mem_filter.2 ⟨hi, by simp⟩
      have hmn : ((selectedEdgeIdx g tc).filter
          (fun j => decide (srcAt g j = srcAt g i))).Nodup := hnodup.filter _
      rw [hsplit, length_filter_ne_of_nodup hmn him]
      rfl
    rw [hlen1, List.map_congr_left hper, ← List.sum_toFinset _ hnodup]
    have hmaps : ∀ i ∈ (selectedEdgeIdx g tc).toFinset, srcAt g i ∈ Finset.range g.numNodes := by
      intro i hi
      rw [List.mem_toFinset] at hi
      have hlt := selected_lt g tc hi
      have hmem : g.edges.getD i edge0 ∈ g.edges := by
        rw [getD_eq_of_lt _ _ hlt]
        exact List.getElem_mem hlt
      exact Finset.mem_range.2 (hwf _ hmem)
    rw [← Finset.sum_fiberwise_of_maps_to hmaps (fun i => incidentCount g tc (srcAt g i) - 1)]
    apply Finset.sum_congr rfl
    intro a _
    have hfib : ∀ i ∈ (selectedEdgeIdx g tc).toFinset.filter (fun i => srcAt g i = a),
        incidentCount g tc (srcAt g i) - 1 = incidentCount g tc a - 1 := by
      intro i hi
      rw [(Finset.mem_filter.1 hi).2]
    rw [Finset.sum_congr rfl hfib, Finset.sum_const, smul_eq_mul]
    have hcard : ((selectedEdgeIdx g tc).toFinset.filter (fun i => srcAt g i = a)).card
        = incidentCount g tc a := by
      have h1 : ((selectedEdgeIdx g tc).filter (fun i => decide (srcAt g i = a))).toFinset
          = (selectedEdgeIdx g tc).toFinset.filter (fun i => srcAt g i = a) := by
        rw [List.toFinset_filter]
        apply Finset.filter_congr
        intro i _
        simp
      rw [← h1, List.toFinset_card_of_nodup (hnodup.filter _)]
      rfl
    rw [hcard]
  · intro a ha
    interval_cases h : incidentCount g tc a
    · rfl
    · rfl
  · intro h
    simp [create_line_graph, h]

/-- Witness for C3 on the three-atom molecule at three-body cutoff 2. -/
theorem create_line_graph_counts_witness :
    (∀ e ∈ gTri.edges, e.src < gTri.numNodes) ∧
      ((create_line_graph gTri 2).nodes = selectedEdgeIdx gTri 2
        ∧ (∀ i, i ∈ (create_line_graph gTri 2).nodes ↔
            i < gTri.edges.length ∧ edgeDistSqAt gTri i ≤ (2 : ℚ) ^ 2)
        ∧ (create_line_graph gTri 2).edges.length
            = ∑ a ∈ Finset.range gTri.numNodes,
                incidentCount gTri 2 a * (incidentCount gTri 2 a - 1)
        ∧ (∀ a, incidentCount gTri 2 a < 2 →
            incidentCount gTri 2 a * (incidentCount gTri 2 a - 1) = 0)
        ∧ (selectedEdgeIdx gTri 2 = [] → (create_line_graph gTri 2).edges = [])) :=
  ⟨by with_unfolding_all decide,
   create_line_graph_counts gTri 2 (by with_unfolding_all decide)⟩

/-- Dot product of two feature vectors (rows). -/
def dotL (a b : List ℚ) : ℚ := (List.zipWith (· * ·) a b).sum

/-- Componentwise sum of two feature vectors. -/
def addVec (a b : List ℚ) : List ℚ := List.zipWith (· + ·) a b

/-- Scaling of a feature vector. -/
def smulL (c : ℚ) (v : List ℚ) : List ℚ := v.map (fun x => c * x)

/-- Componentwise (Hadamard) product of two feature vectors. -/
def hadamard (a b : List ℚ) : List ℚ := List.zipWith (· * ·) a b

/-- Matrix-vector product, one dot product per matrix row. -/
def matVec (M : List (List ℚ)) (v : List ℚ) : List ℚ := M.map (fun row => dotL row v)

/-- Modelled from the spec: the bias-free `GatedMLP` of `matgl.layers.core`
(not in src/): a linear map gated by a second linear map passed through the
sigmoid-like activation `σg`. -/
def GatedMLP (W V : List (List ℚ)) (σg : ℚ → ℚ) (v : List ℚ) : List ℚ :=
  hadamard (matVec W v) ((matVec V v).map σg)

/-- List access with a default agrees with indexed access in range. -/
theorem getD_list_eq_of_lt {α : Type} (l : List α) (d : α) {i : ℕ} (h : i < l.length) :
    l.getD i d = l[i] := by
  rw [List.getD_eq_getElem?_getD, List.getElem?_eq_getElem h]
  rfl

/-- Access into a map over a range picks out the function value. -/
theorem getD_map_range {α : Type} (f : ℕ → α) (d : α) {n e : ℕ} (h : e < n) :
    ((List.range n).map f).getD e d = f e := by
  have h2 : e < ((List.range n).map f).length := by
    rw [List.length_map, List.length_range]
    exact h
  rw [getD_list_eq_of_lt _ _ h2]
  simp

/-- A dot product against the zero vector vanishes. -/
theorem dotL_replicate_zero (r : List ℚ) (d : ℕ) : dotL r (List.replicate d 0) = 0 := by
  induction r generalizing d with
  | nil => rfl
  | cons a t ih =>
    cases d with
    | zero => rfl
    | succ n =>
      show (List.zipWith (· * ·) (a :: t) ((0 : ℚ) :: List.replicate n 0)).sum = 0
      rw [List.zipWith_cons_cons, List.sum_cons]
      have ht : (List.zipWith (· * ·) t (List.replicate n (0 : ℚ))).sum = 0 := ih n
      rw [ht, mul_zero, add_zero]

/-- A matrix applied to the zero vector gives the zero vector. -/
theorem matVec_replicate_zero (M : List (List ℚ)) (d : ℕ) :
    matVec M (List.replicate d 0) = List.replicate M.length 0 := by
  induction M with
  | nil => rfl
  | cons r M' ih =>
    show dotL r (List.replicate d 0) :: matVec M' (List.replicate d 0)
      = List.replicate (M'.length + 1) 0
    rw [dotL_replicate_zero, ih, List.replicate_succ]

/-- A Hadamard product with the zero vector on the left vanishes. -/
theorem hadamard_replicate_zero_left (l : List ℚ) (n : ℕ) (h : l.length = n) :
    hadamard (List.replicate n 0) l = List.replicate n 0 := by
  subst h
  induction l with
  | nil => rfl
  | cons a t ih =>
    show List.zipWith (· * ·) ((0 : ℚ) :: List.replicate t.length 0) (a :: t)
      = List.replicate (t.length + 1) 0
    rw [List.zipWith_cons_cons, zero_mul, List.replicate_succ]
    show (0 : ℚ) :: hadamard (List.replicate t.length 0) t = 0 :: List.replicate t.length 0
    rw [ih]

/-- The bias-free gated transform maps the zero message to the zero update. -/
theorem GatedMLP_zero (W V : List (List ℚ)) (σg : ℚ → ℚ) (d : ℕ)
    (hV : V.length = W.length) :
    GatedMLP W V σg (List.replicate d 0) = List.replicate W.length 0 := by
  rw [GatedMLP, matVec_replicate_zero, matVec_replicate_zero]
  apply hadamard_replicate_zero_left
  rw [List.length_map, List.length_replicate, hV]

/-- Adding the zero update leaves a feature row unchanged. -/
theorem addVec_replicate_zero (f : List ℚ) : addVec f (List.replicate f.length 0) = f := by
  induction f with
  | nil => rfl
  | cons a t ih =>
    show (a + 0) :: addVec t (List.replicate t.length 0) = a :: t
    rw [add_zero, ih]

/-- Modelled from the spec: the contribution of one line-graph edge in step
(b) of the three-body layer: the basis row at that triple, weighted by the
shared atom row and by the product of the cutoff envelopes of the two
participating bonds. -/
def tripleContrib (g : AtomicGraph) (basis : List (List ℚ)) (env : List ℚ)
    (atomW : List (List ℚ)) (k : ℕ) (q : ℕ × ℕ) : List ℚ :=
  smulL (env.getD q.1 0 * env.getD q.2 0)
    (hadamard (basis.getD k []) (atomW.getD (srcAt g q.1) []))

/-- Modelled from the spec: the scatter-add of step (c): the aggregated
message of a base edge is the sum of the contributions of every line-graph
edge in which it participates. -/
def edgeMessage (g : AtomicGraph) (lg : LineGraph) (basis : List (List ℚ)) (env : List ℚ)
    (atomW : List (List ℚ)) (degree e : ℕ) : List ℚ :=
  (((List.range lg.edges.length).filter (fun k =>
      decide ((lg.edges.getD k (0, 0)).1 = e ∨ (lg.edges.getD k (0, 0)).2 = e))).map
    (fun k => tripleContrib g basis env atomW k (lg.edges.getD k (0, 0)))).foldl addVec
      (List.replicate degree 0)

/-- Modelled from the spec: the `ThreeBodyInteractions` layer of
`matgl.layers.three_body` (not in src/): per-atom weights from the node
network, scatter-added weighted basis contributions per edge, a gated
transform of the aggregate and a residual update of the edge features. -/
def ThreeBodyInteractions (g : AtomicGraph) (lg : LineGraph) (basis : List (List ℚ))
    (env : List ℚ) (U W V : List (List ℚ)) (σu σg : ℚ → ℚ)
    (nodeFeat edgeFeat : List (List ℚ)) (degree : ℕ) : List (List ℚ) :=
  let atomW := nodeFeat.map (fun f => (matVec U f).map σu)
  (List.range edgeFeat.length).map (fun e =>
    addVec (edgeFeat.getD e []) (GatedMLP W V σg (edgeMessage g lg basis env atomW degree e)))

/-- A base edge touched by no line-graph edge receives the zero message. -/
theorem edgeMessage_of_no_neighbor (g : AtomicGraph) (lg : LineGraph)
    (basis : List (List ℚ)) (env : List ℚ) (atomW : List (List ℚ)) (degree e : ℕ)
    (h : ∀ q ∈ lg.edges, q.1 ≠ e ∧ q.2 ≠ e) :
    edgeMessage g lg basis env atomW degree e = List.replicate degree 0 := by
  have hfil : (List.range lg.edges.length).filter (fun k =>
      decide ((lg.edges.getD k (0, 0)).1 = e ∨ (lg.edges.getD k (0, 0)).2 = e)) = [] := by
    apply List.filter_eq_nil_iff.2
    intro k hk
    have hk' := List.mem_range.1 hk
    have hmem : lg.edges.getD k (0, 0) ∈ lg.edges := by
      rw [getD_list_eq_of_lt _ _ hk']
      exact List.getElem_mem hk'
    have hq := h _ hmem
    simp only [decide_eq_true_eq, not_or]
    exact ⟨hq.1, hq.2⟩
  rw [edgeMessage, hfil]
  rfl

/-- The two-atom C-O molecule of the test scenario, bond length 1. -/
def stCO : AtomStructure := ⟨["C", "O"], [((0 : ℚ), 0, 0), ((1 : ℚ), 0, 0)], none⟩

/-- The C-O molecule graph converted at cutoff 4. -/
def gCO : AtomicGraph := get_graph_from_molecule 4 stCO

/-- C6: a base edge participating in no line-graph edge receives a zero
update from the three-body layer, and on the two-atom C-O molecule the
line graph is empty and the layer returns the edge features unchanged. -/
theorem three_body_zero_update :
    (∀ (g : AtomicGraph) (lg : LineGraph) (basis : List (List ℚ)) (env : List ℚ)
        (U W V : List (List ℚ)) (σu σg : ℚ → ℚ) (nodeFeat edgeFeat : List (List ℚ))
        (degree e : ℕ),
        e < edgeFeat.length →
        (∀ q ∈ lg.edges, q.1 ≠ e ∧ q.2 ≠ e) →
        W.length = (edgeFeat.getD e []).length →
        V.length = W.length →
        (ThreeBodyInteractions g lg basis env U W V σu σg nodeFeat edgeFeat degree).getD e []
          = edgeFeat.getD e [])
    ∧ gCO.edges.length = 2
    ∧ (create_line_graph gCO 4).edges = []
    ∧ ∀ (basis : List (List ℚ)) (env : List ℚ) (U W V : List (List ℚ)) (σu σg : ℚ → ℚ)
        (nodeFeat edgeFeat : List (List ℚ)) (degree : ℕ),
        (∀ f ∈ edgeFeat, W.length = f.length) →
        V.length = W.length →
        ThreeBodyInteractions gCO (create_line_graph gCO 4) basis env U W V σu σg
          nodeFeat edgeFeat degree = edgeFeat := by
  have hlg : (create_line_graph gCO 4).edges = [] := by with_unfolding_all decide
  refine ⟨?_, by with_unfolding_all decide, hlg, ?_⟩
  · intro g lg basis env U W V σu σg nodeFeat edgeFeat degree e he hno hW hV
    simp only [ThreeBodyInteractions]
    rw [getD_map_range _ _ he]
    rw [edgeMessage_of_no_neighbor _ _ _ _ _ _ _ hno]
    rw [GatedMLP_zero _ _ _ _ hV, hW, addVec_replicate_zero]
  · intro basis env U W V σu σg nodeFeat edgeFeat degree hrow hV
    apply List.ext_getElem
    · simp [ThreeBodyInteractions]
    · intro i h1 h2
      simp only [ThreeBodyInteractions]
      rw [List.getElem_map, List.getElem_range]
      have hmsg : edgeMessage gCO (create_line_graph gCO 4) basis env
          (nodeFeat.map (fun f => (matVec U f).map σu)) degree i
            = List.replicate degree 0 := by
        apply edgeMessage_of_no_neighbor
        intro q hq
        rw [hlg] at hq
        cases hq
      rw [hmsg, GatedMLP_zero _ _ _ _ hV]
      have hfi : edgeFeat.getD i [] = edgeFeat[i] := getD_list_eq_of_lt _ _ h2
      rw [hfi, hrow _ (List.getElem_mem h2), addVec_replicate_zero]

/-- Witness for C6: a one-edge feature table on the C-O scenario passes
through the layer unchanged. -/
theorem three_body_zero_update_witness :
    (0 < ([[(5 : ℚ)]] : List (List ℚ)).length
      ∧ (∀ q ∈ (create_line_graph gCO 4).edges, q.1 ≠ 0 ∧ q.2 ≠ 0)
      ∧ ([[(2 : ℚ)]] : List (List ℚ)).length
          = (([[(5 : ℚ)]] : List (List ℚ)).getD 0 []).length
      ∧ ([[(3 : ℚ)]] : List (List ℚ)).length = ([[(2 : ℚ)]] : List (List ℚ)).length)
    ∧ (ThreeBodyInteractions gCO (create_line_graph gCO 4) [] [] [] [[(2 : ℚ)]] [[(3 : ℚ)]]
          id id [] [[(5 : ℚ)]] 1).getD 0 [] = ([[(5 : ℚ)]] : List (List ℚ)).getD 0 [] :=
  ⟨⟨by decide, by with_unfolding_all decide, by decide, by decide⟩,
   three_body_zero_update.1 gCO (create_line_graph gCO 4) [] [] [] [[(2 : ℚ)]] [[(3 : ℚ)]]
     id id [] [[(5 : ℚ)]] 1 0 (by decide) (by with_unfolding_all decide)
     (by decide) (by decide)⟩

/-- C9: the three-body layer output has exactly one row per base edge and
the same row width as the input edge features. -/
theorem three_body_output_shape (g : AtomicGraph) (lg : LineGraph) (basis : List (List ℚ))
    (env : List ℚ) (U W V : List (List ℚ)) (σu σg : ℚ → ℚ)
    (nodeFeat edgeFeat : List (List ℚ)) (degree dF : ℕ)
    (hW : W.length = dF) (hV : V.length = dF) (hrows : ∀ f ∈ edgeFeat, f.length = dF) :
    (ThreeBodyInteractions g lg basis env U W V σu σg nodeFeat edgeFeat degree).length
        = edgeFeat.length
    ∧ ∀ e, e < edgeFeat.length →
        ((ThreeBodyInteractions g lg basis env U W V σu σg nodeFeat
            edgeFeat degree).getD e []).length
          = (edgeFeat.getD e []).length := by
  constructor
  · simp [ThreeBodyInteractions]
  · intro e he
    simp only [ThreeBodyInteractions]
    rw [getD_map_range _ _ he]
    have hf : (edgeFeat.getD e []).length = dF := by
      rw [getD_list_eq_of_lt _ _ he]
      exact hrows _ (List.getElem_mem he)
    have hg : ∀ v : List ℚ, (GatedMLP W V σg v).length = dF := by
      intro v
      simp [GatedMLP, hadamard, matVec, List.length_zipWith, hW, hV]
    rw [addVec, List.length_zipWith, hg, hf, Nat.min_self]

/-- Witness for C9 on a one-edge feature table. -/
theorem three_body_output_shape_witness :
    (([[(2 : ℚ)]] : List (List ℚ)).length = 1 ∧ ([[(3 : ℚ)]] : List (List ℚ)).length = 1
      ∧ ∀ f ∈ ([[(5 : ℚ)]] : List (List ℚ)), f.length = 1)
    ∧ ((ThreeBodyInteractions gCO ⟨[], []⟩ [] [] [] [[(2 : ℚ)]] [[(3 : ℚ)]]
          id id [] [[(5 : ℚ)]] 1).length = ([[(5 : ℚ)]] : List (List ℚ)).length
      ∧ ∀ e, e < ([[(5 : ℚ)]] : List (List ℚ)).length →
          ((ThreeBodyInteractions gCO ⟨[], []⟩ [] [] [] [[(2 : ℚ)]] [[(3 : ℚ)]]
              id id [] [[(5 : ℚ)]] 1).getD e []).length
            = (([[(5 : ℚ)]] : List (List ℚ)).getD e []).length) :=
  ⟨⟨by decide, by decide, by with_unfolding_all decide⟩,
   three_body_output_shape gCO ⟨[], []⟩ [] [] [] [[(2 : ℚ)]] [[(3 : ℚ)]] id id [] [[(5 : ℚ)]]
     1 1 (by decide) (by decide) (by with_unfolding_all decide)⟩
